import Mathlib

/-!
Verification of the framing protocol of the stream library
(pystream-protobuf), a shallow embedding of src/stream/stream.py.

Bytes are modelled as natural numbers (actual channel bytes are < 256; the
bit operations used below, `b % 128` for `b & 0x7f` and `Nat.testBit b 7`
for `(b & 0x80) >> 7 == 1`, agree with the Python expressions on all
naturals).  The byte channel is the list of bytes remaining to be read
(reading), or the list of bytes written so far (writing); `read(n)` on a
file-like object returns up to `n` bytes, i.e. `List.take n`.  Raised
exceptions are modelled with `Except`: `Except.error ()` stands for the
EOFError raised by the source.
-/

/-- Varint encoder, the consumed contract of
`google.protobuf.internal.encoder._EncodeVarint` (imported by
src/stream/stream.py as `encodeVarint`): unsigned LEB128, 7 data bits per
byte, least significant group first, continuation bit `0x80` on every byte
but the last.  `fuel` only bounds the iteration count (the value shrinks by
a factor of 128 each step, so `fuel = n` always suffices; see
`encodeVarintAux_fuel` and `encodeVarint_eq`). -/
def encodeVarintAux : Nat → Nat → List Nat
  | 0, n => [n]
  | fuel + 1, n => if n < 128 then [n] else (n % 128 + 128) :: encodeVarintAux fuel (n / 128)

/-- Varint encoding of a natural number (see `encodeVarintAux`). -/
def encodeVarint (n : Nat) : List Nat :=
  encodeVarintAux n n

theorem encodeVarintAux_fuel (fuel₁ : Nat) :
    ∀ fuel₂ n, n ≤ fuel₁ → n ≤ fuel₂ → encodeVarintAux fuel₁ n = encodeVarintAux fuel₂ n := by
  induction fuel₁ with
  | zero =>
    intro fuel₂ n h1 _
    interval_cases n
    cases fuel₂ <;> simp [encodeVarintAux]
  | succ f ih =>
    intro fuel₂ n h1 h2
    cases fuel₂ with
    | zero =>
      interval_cases n
      simp [encodeVarintAux]
    | succ f2 =>
      simp only [encodeVarintAux]
      by_cases hn : n < 128
      · simp [hn]
      · simp only [hn, if_false]
        have hdiv : n / 128 ≤ f := by omega
        have hdiv2 : n / 128 ≤ f2 := by
          have := Nat.div_le_self n 128
          omega
        rw [ih f2 (n / 128) hdiv hdiv2]

/-- Unfolding equation for `encodeVarint` matching the source loop of
`_EncodeVarint`. -/
theorem encodeVarint_eq (n : Nat) :
    encodeVarint n = if n < 128 then [n] else (n % 128 + 128) :: encodeVarint (n / 128) := by
  unfold encodeVarint
  cases n with
  | zero => simp [encodeVarintAux]
  | succ k =>
    simp only [encodeVarintAux]
    by_cases hn : k + 1 < 128
    · simp [hn]
    · simp only [hn, if_false]
      have h1 : (k + 1) / 128 ≤ k := by
        have := Nat.div_le_self (k + 1) 128
        omega
      rw [encodeVarintAux_fuel k ((k + 1) / 128) ((k + 1) / 128) h1 le_rfl]

theorem encodeVarint_ne_nil (n : Nat) : encodeVarint n ≠ [] := by
  rw [encodeVarint_eq]
  split <;> simp

/-- Varint decoder over a complete byte buffer, the consumed contract of
`google.protobuf.internal.decoder._DecodeVarint` (spec 4.1): each byte
contributes its low 7 bits (`b & 0x7f = b % 128`), least significant group
first. -/
def decodeVarint : List Nat → Nat
  | [] => 0
  | b :: rest => b % 128 + 128 * decodeVarint rest

/-- The continuation-byte loop of `Stream._read_varint`: `b` is the byte
already read; while its MSB (`(b & 0x80) >> 7`, i.e. `Nat.testBit b 7`) is
set, read one more byte from the channel, raising EOFError (`.error ()`)
when the channel is exhausted.  Returns the collected varint bytes and the
remaining channel. -/
def varintBytes (b : Nat) (chan : List Nat) : Except Unit (List Nat × List Nat) :=
  if Nat.testBit b 7 then
    match chan with
    | [] => .error ()
    | c :: rest =>
      match varintBytes c rest with
      | .error e => .error e
      | .ok (buf, rem) => .ok (b :: buf, rem)
  else .ok ([b], chan)

/-- `Stream._read_varint`: read one byte; an empty read yields 0; otherwise
collect continuation bytes and decode. -/
def read_varint (chan : List Nat) : Except Unit (Nat × List Nat) :=
  match chan with
  | [] => .ok (0, [])
  | b :: rest =>
    match varintBytes b rest with
    | .error e => .error e
    | .ok (buf, rem) => .ok (decodeVarint buf, rem)

/-- `Stream._async_read_varint`: byte for byte the same algorithm as
`Stream._read_varint`, with every channel read a suspension point (awaits
are transparent in this shallow embedding, so the body coincides with the
synchronous one). -/
def async_read_varint (chan : List Nat) : Except Unit (Nat × List Nat) :=
  match chan with
  | [] => .ok (0, [])
  | b :: rest =>
    match varintBytes b rest with
    | .error e => .error e
    | .ok (buf, rem) => .ok (decodeVarint buf, rem)

theorem async_read_varint_eq (chan : List Nat) : async_read_varint chan = read_varint chan := rfl

/-- A value yielded by the reading iterator: either raw message bytes, or
the instantiation of the configured delimiter class (`None`, the instance
of `NoneType`, when no `delimiter_cls` was given; an instance of the user
class, identified by a class id, otherwise). -/
inductive PyVal where
  | bytes (data : List Nat)
  | noneVal
  | inst (cls : Nat)
deriving DecidableEq, Repr

/-- `Stream.delimiter_class`: `type(None)` (modelled `none`) if
`self._delimiter is None` else the configured class. -/
def delimiter_class (delim : Option Nat) : Option Nat := delim

/-- Calling a class object: `NoneType()` is `None`; a user delimiter class
produces an instance of that class. -/
def instantiate : Option Nat → PyVal
  | none => .noneVal
  | some c => .inst c

/-- `isinstance(v, cls)` for the values a reading consumer sees: `None` is
an instance of `NoneType` only; an instance of a user class is an instance
of exactly that class; a byte-string is an instance of neither. -/
def isInstance : PyVal → Option Nat → Bool
  | .noneVal, none => true
  | .inst c, some c' => c == c'
  | _, _ => false

/-- Read-mode `Stream` state: the remaining channel bytes (`_fd`), the
remaining object count of the current group (`_count`), the
`group_delimiter` option (`_group_delim`), the optional delimiter class
(`_delimiter`), and the group flag (`_gflag`). -/
structure StreamR where
  chan : List Nat
  count : Nat
  group_delim : Bool
  delimiter : Option Nat
  gflag : Bool
deriving DecidableEq, Repr

/-- `Stream.__next__`: when the current group is consumed (`_count == 0`)
read the next group-count varint; a zero count ends the iteration
(`.ok none` models StopIteration); otherwise, if the group flag is set,
yield one delimiter instance and clear it, else decrement the count, set
the group flag when this was the last object of a group with
`group_delimiter` enabled, read the size varint (a zero size raises
EOFError), read that many bytes and raise EOFError on a partial read. -/
def streamNext (s : StreamR) : Except Unit (Option (PyVal × StreamR)) :=
  match (if s.count = 0 then read_varint s.chan else Except.ok (s.count, s.chan)) with
  | .error e => .error e
  | .ok (cnt, chan₁) =>
    if cnt ≠ 0 then
      if s.gflag then
        .ok (some (instantiate (delimiter_class s.delimiter),
          { s with count := cnt, chan := chan₁, gflag := false }))
      else
        match read_varint chan₁ with
        | .error e => .error e
        | .ok (size, chan₂) =>
          if size = 0 then .error ()
          else
            if (chan₂.take size).length < size then .error ()
            else .ok (some (PyVal.bytes (chan₂.take size),
              { s with chan := chan₂.drop size, count := cnt - 1, gflag := s.group_delim && (cnt - 1) == 0 }))
    else
      .ok none

/-- `Stream.__anext__`: identical control flow to `Stream.__next__` except
that the final `await self._fd.read(size)` is returned without the
partial-read length check present in the synchronous path. -/
def streamAnext (s : StreamR) : Except Unit (Option (PyVal × StreamR)) :=
  match (if s.count = 0 then async_read_varint s.chan else Except.ok (s.count, s.chan)) with
  | .error e => .error e
  | .ok (cnt, chan₁) =>
    if cnt ≠ 0 then
      if s.gflag then
        .ok (some (instantiate (delimiter_class s.delimiter),
          { s with count := cnt, chan := chan₁, gflag := false }))
      else
        match async_read_varint chan₁ with
        | .error e => .error e
        | .ok (size, chan₂) =>
          if size = 0 then .error ()
          else
            .ok (some (PyVal.bytes (chan₂.take size),
              { s with chan := chan₂.drop size, count := cnt - 1, gflag := s.group_delim && (cnt - 1) == 0 }))
    else
      .ok none

/-- Drive `Stream.__next__` to exhaustion, collecting the yielded values
(accumulator is reversed on return).  `fuel` bounds the number of
iterations; `none` means the fuel ran out (never the case for the fuel
chosen in `readAll`), `some (.error ())` a raised EOFError, and
`some (.ok vs)` a clean StopIteration after yielding `vs`. -/
def readAllAux : Nat → StreamR → List PyVal → Option (Except Unit (List PyVal))
  | 0, _, _ => none
  | fuel + 1, s, acc =>
    match streamNext s with
    | .error _ => some (.error ())
    | .ok none => some (.ok acc.reverse)
    | .ok (some (v, s')) => readAllAux fuel s' (v :: acc)

/-- Iterate a fresh read-mode `Stream` over the channel bytes `chan` with
the given `group_delimiter` / `delimiter_cls` options (initial state per
`Stream.__init__`: `_count = 0`, `_gflag = False`).  Every yielded value
strictly consumes channel bytes or clears the group flag, so
`chan.length + 2` fuel always suffices. -/
def readAll (chan : List Nat) (gd : Bool) (d : Option Nat) : Option (Except Unit (List PyVal)) :=
  readAllAux (chan.length + 2) ⟨chan, 0, gd, d, false⟩ []

/-- Number of delimiter instances in a sequence of yielded values. -/
def countDelims (d : Option Nat) (out : List PyVal) : Nat :=
  (out.filter (fun v => v == instantiate (delimiter_class d))).length

/-- The per-message wire encoding a flush produces for its buffer: each
message as (size varint, message bytes). -/
def encodeMsgs (msgs : List (List Nat)) : List Nat :=
  msgs.flatMap (fun m => encodeVarint m.length ++ m)

/-- The wire encoding of one group: a varint of the message count followed
by the encoded messages. -/
def encodeGroup (g : List (List Nat)) : List Nat :=
  encodeVarint g.length ++ encodeMsgs g

/-- Write-mode `Stream` state: the bytes written to the channel so far
(`_fd`), the pending message buffer (`_write_buff`, each entry the
serialization `SerializeToString()` of a buffered object — the claims are
about message byte-strings, so messages are modelled by their
serializations), and the configured `buffer_size` (an integer: 0, positive,
or negative). -/
structure WStream where
  out : List Nat
  write_buff : List (List Nat)
  buffer_size : Int
deriving DecidableEq, Repr

/-- A fresh write-mode `Stream` per `Stream.__init__`: empty buffer, the
given `buffer_size`, nothing written yet. -/
def initW (bufSize : Int) : WStream :=
  { out := [], write_buff := [], buffer_size := bufSize }

/-- `Stream.flush`: a no-op on an empty buffer; otherwise write a varint of
the buffer length, then each buffered message as (size varint, bytes), and
clear the buffer.  (On a read-mode stream `flush` returns immediately via
the `is_output` check; `WStream` is write-mode by construction.) -/
def flush (s : WStream) : WStream :=
  if s.write_buff.isEmpty then s
  else { s with
    out := s.out ++ encodeVarint s.write_buff.length ++ encodeMsgs s.write_buff,
    write_buff := [] }

/-- The `for idx, obj in enumerate(pb2_obj)` loop of `Stream.write`: before
appending the object at loop index `idx`, flush when `buffer_size > 0` and
`idx + base` is a non-zero multiple of `buffer_size` (`base` is the buffer
length captured once at call entry). -/
def writeLoop (s : WStream) (base : Nat) : Nat → List (List Nat) → WStream
  | _, [] => s
  | idx, obj :: rest =>
    let s₁ :=
      if s.buffer_size > 0 ∧ (idx + base) ≠ 0 ∧ ((idx + base : Int) % s.buffer_size = 0) then
        flush s
      else s
    writeLoop { s₁ with write_buff := s₁.write_buff ++ [obj] } base (idx + 1) rest

/-- `Stream.write`: run the buffering loop over the given messages, then
flush if `buffer_size == 0`. -/
def write (s : WStream) (objs : List (List Nat)) : WStream :=
  let s' := writeLoop s s.write_buff.length 0 objs
  if s.buffer_size = 0 then flush s' else s'

/-- `Stream.close` on the write side: flush the pending buffer (the
channel-ownership part of close is modelled separately by `closeHandle`). -/
def closeW (s : WStream) : WStream :=
  flush s

/-- Channel bytes produced by writing the message groups with the real
`write`/`flush`/`close` operations: a stream with `buffer_size = -1`
(never auto-flush), one `write` call plus one explicit `flush` per group,
then `close`. -/
def writeGroups (groups : List (List (List Nat))) : List Nat :=
  (closeW (groups.foldl (fun s g => flush (write s g)) (initW (-1)))).out

/-- The expected wire image of a group sequence: the concatenation of the
group encodings. -/
def writeOut (groups : List (List (List Nat))) : List Nat :=
  groups.flatMap encodeGroup

/-- The values a reading consumer with `group_delimiter=True` should see
for a written group sequence: each group's message byte-strings in order,
with exactly one delimiter instance between consecutive groups. -/
def expectedRead (d : Option Nat) : List (List (List Nat)) → List PyVal
  | [] => []
  | g :: gs =>
    g.map PyVal.bytes ++
      (match gs with
      | [] => []
      | _ :: _ => instantiate (delimiter_class d) :: expectedRead d gs)

/-- A byte channel for the exception-level model of `flush` (claim about a
failed flush): `out` is what has been accepted so far and `budget` is how
many further write calls succeed (`none`: all succeed; `some k`: the
(k+1)-th write call from now raises a ChannelError, modelled `.error` with
the channel unchanged by the failed call). -/
structure Chan where
  out : List Nat
  budget : Option Nat
deriving DecidableEq, Repr

/-- One `self._fd.write(bs)` call against a fallible channel. -/
def chanWrite (c : Chan) (bs : List Nat) : Except Chan Chan :=
  match c.budget with
  | none => .ok { c with out := c.out ++ bs }
  | some 0 => .error c
  | some (k + 1) => .ok { out := c.out ++ bs, budget := some k }

/-- Write-mode stream state over a fallible channel. -/
structure WState where
  chan : Chan
  write_buff : List (List Nat)
deriving DecidableEq, Repr

/-- The two kinds of statements `Stream.flush` executes in order: a channel
write of some bytes, or the final `self._write_buff = []`. -/
inductive WOp where
  | put (bs : List Nat)
  | clear
deriving DecidableEq, Repr

/-- Execute the statements of a flush in order; a raising channel write
propagates immediately (`.error`), leaving the state exactly as the
already-executed statements left it. -/
def runOps : WState → List WOp → Except WState WState
  | s, [] => .ok s
  | s, WOp.put bs :: rest =>
    match chanWrite s.chan bs with
    | .ok c' => runOps { s with chan := c' } rest
    | .error ce => .error { s with chan := ce }
  | s, WOp.clear :: rest => runOps { s with write_buff := [] } rest

/-- The channel-write calls `Stream.flush` issues for a non-empty buffer,
in order: `encodeVarint(self._fd.write, count)` writes one byte per call,
then for each message one call per size-varint byte and one call for the
message bytes. -/
def flushChunks (buff : List (List Nat)) : List (List Nat) :=
  (encodeVarint buff.length).map (fun b => [b]) ++
    buff.flatMap (fun m => (encodeVarint m.length).map (fun b => [b]) ++ [m])

/-- The statement sequence of `Stream.flush`: nothing for an empty buffer;
otherwise all channel writes followed by the buffer clear, which is the
last statement of the source. -/
def flushOps (buff : List (List Nat)) : List WOp :=
  if buff.isEmpty then [] else (flushChunks buff).map WOp.put ++ [WOp.clear]

/-- `Stream.flush` over a fallible channel. -/
def flushExc (s : WState) : Except WState WState :=
  runOps s (flushOps s.write_buff)

/-- Channel-ownership state of a `Stream` handle: `myfd` models `_myfd`
(`some ()` when the stream opened its own channel by path and has not yet
closed it), and `closes` counts how many `close()` calls this handle has
delivered to the underlying channel. -/
structure Handle where
  myfd : Option Unit
  closes : Nat
deriving DecidableEq, Repr

/-- `Stream.__init__` with a `filename` path: the stream opens the channel
itself and records it in `_myfd`. -/
def initPathHandle : Handle :=
  { myfd := some (), closes := 0 }

/-- `Stream.__init__` with an already-open `fileobj`: `_myfd` stays `None`.
-/
def initFileobjHandle : Handle :=
  { myfd := none, closes := 0 }

/-- `Stream.close` (also run by `__exit__` on every exit path): after the
flush, close the owned channel if `_myfd` is not `None` and set `_myfd`
to `None`; otherwise do nothing to the channel. -/
def closeHandle (h : Handle) : Handle :=
  match h.myfd with
  | some _ => { myfd := none, closes := h.closes + 1 }
  | none => h

/-- `n` successive `close()` / `__exit__` invocations. -/
def closeN : Nat → Handle → Handle
  | 0, h => h
  | n + 1, h => closeN n (closeHandle h)

/-- Modelled from the spec: header support is absent from
src/stream/stream.py (its tests pass a `header=` option to `Stream`); per
spec 4.4 a write-mode stream "emits it once before any group", so the
channel holds the literal header bytes followed by the written groups. -/
def writeGroupsHeader (hdr : List Nat) (groups : List (List (List Nat))) : List Nat :=
  hdr ++ writeGroups groups

/-- Modelled from the spec: header support is absent from
src/stream/stream.py; per spec 4.4 a read-mode stream "consumes exactly
that many bytes before decoding the first group-count varint", only the
byte count, without validating content. -/
def readAllHeader (hdr : List Nat) (chan : List Nat) (gd : Bool) (d : Option Nat) :
    Option (Except Unit (List PyVal)) :=
  readAll (chan.drop hdr.length) gd d

theorem testBit7_false_of_lt {b : Nat} (h : b < 128) : Nat.testBit b 7 = false := by
  rw [Nat.testBit_to_div_mod]
  have h0 : b / 2 ^ 7 = 0 := Nat.div_eq_of_lt (by omega)
  rw [h0]
  simp

theorem testBit7_true_of_ge {b : Nat} (h1 : 128 ≤ b) (h2 : b < 256) : Nat.testBit b 7 = true := by
  rw [Nat.testBit_to_div_mod]
  have h0 : b / 2 ^ 7 = 1 := by
    have : (2 : Nat) ^ 7 = 128 := by norm_num
    rw [this]
    omega
  rw [h0]
  simp

theorem varintBytes_encode (n : Nat) :
    ∀ rest b t, encodeVarint n = b :: t →
      varintBytes b (t ++ rest) = Except.ok (b :: t, rest) ∧ decodeVarint (b :: t) = n := by
  induction n using Nat.strong_induction_on with
  | _ n ih =>
    intro rest b t henc
    rw [encodeVarint_eq] at henc
    by_cases hn : n < 128
    · rw [if_pos hn] at henc
      cases henc
      constructor
      · rw [varintBytes.eq_def, testBit7_false_of_lt hn]
        simp
      · simp [decodeVarint, Nat.mod_eq_of_lt hn]
    · rw [if_neg hn] at henc
      cases henc
      have hlt : n / 128 < n := Nat.div_lt_self (by omega) (by omega)
      obtain ⟨b', t', henc'⟩ : ∃ b' t', encodeVarint (n / 128) = b' :: t' := by
        cases h : encodeVarint (n / 128) with
        | nil => exact absurd h (encodeVarint_ne_nil _)
        | cons b' t' => exact ⟨b', t', rfl⟩
      obtain ⟨hvb, hdec⟩ := ih (n / 128) hlt rest b' t' henc'
      have hbit : Nat.testBit (n % 128 + 128) 7 = true :=
        testBit7_true_of_ge (by omega) (by have := Nat.mod_lt n (y := 128) (by omega); omega)
      constructor
      · rw [varintBytes.eq_def, hbit, if_pos rfl]
        rw [henc', List.cons_append]
        simp [hvb]
      · rw [decodeVarint, henc', hdec]
        omega

/-- Decoding a varint from a channel that starts with the encoding of `n`
consumes exactly the encoding and returns `n`. -/
theorem read_varint_encode (n : Nat) (rest : List Nat) :
    read_varint (encodeVarint n ++ rest) = Except.ok (n, rest) := by
  obtain ⟨b, t, henc⟩ : ∃ b t, encodeVarint n = b :: t := by
    cases h : encodeVarint n with
    | nil => exact absurd h (encodeVarint_ne_nil _)
    | cons b t => exact ⟨b, t, rfl⟩
  obtain ⟨hvb, hdec⟩ := varintBytes_encode n rest b t henc
  rw [henc, List.cons_append, read_varint, hvb]
  simp [hdec]

/-- A varint whose continuation bytes never terminate (every byte has the
MSB set) raises EOFError when the channel is exhausted. -/
theorem varintBytes_all_cont (bs : List Nat) :
    ∀ b, Nat.testBit b 7 = true → (∀ x ∈ bs, Nat.testBit x 7 = true) →
      varintBytes b bs = Except.error () := by
  induction bs with
  | nil =>
    intro b hb _
    rw [varintBytes.eq_def, hb]
    simp
  | cons c rest ih =>
    intro b hb hall
    rw [varintBytes.eq_def, hb, if_pos rfl]
    simp [ih c (hall c (by simp)) (fun x hx => hall x (by simp [hx]))]

/-- A `streamNext` at a group boundary (`_count = 0`) whose channel starts
with the varint of a non-zero group count behaves exactly like the state
that already holds that count with the varint consumed. -/
theorem streamNext_norm (cnt : Nat) (rest : List Nat) (gd : Bool) (d : Option Nat) (gf : Bool)
    (h : cnt ≠ 0) :
    streamNext ⟨encodeVarint cnt ++ rest, 0, gd, d, gf⟩ = streamNext ⟨rest, cnt, gd, d, gf⟩ := by
  rw [streamNext, streamNext]
  simp [read_varint_encode, h]

/-- Mid-group `streamNext` with the group flag clear: consume the size
varint and the bytes of the first remaining message and yield them; the
group flag is set exactly when the count hits zero with `group_delimiter`
enabled. -/
theorem streamNext_msg (m : List Nat) (ms : List (List Nat)) (rest : List Nat) (c : Nat)
    (gd : Bool) (d : Option Nat) (hm : m ≠ []) :
    streamNext ⟨encodeMsgs (m :: ms) ++ rest, c + 1, gd, d, false⟩ =
      Except.ok (some (PyVal.bytes m,
        ⟨encodeMsgs ms ++ rest, c, gd, d, gd && (c == 0)⟩)) := by
  have hchan : encodeMsgs (m :: ms) ++ rest
      = encodeVarint m.length ++ (m ++ (encodeMsgs ms ++ rest)) := by
    simp [encodeMsgs, List.append_assoc]
  have hsize : m.length ≠ 0 := by
    cases m with
    | nil => exact absurd rfl hm
    | cons a t => simp
  rw [streamNext]
  simp only [hchan, read_varint_encode, if_neg (by omega : ¬c + 1 = 0)]
  simp only [Nat.succ_ne_zero, ne_eq, not_false_iff, if_true, Bool.false_eq_true, if_false,
    Nat.add_sub_cancel]
  rw [List.take_left, List.drop_left]
  simp [hsize, Nat.lt_irrefl]

/-- `streamNext` with the group flag set and a non-zero current count:
yield one delimiter instance and clear the flag, consuming nothing. -/
theorem streamNext_delim (chan : List Nat) (c : Nat) (gd : Bool) (d : Option Nat) (hc : c ≠ 0) :
    streamNext ⟨chan, c, gd, d, true⟩ =
      Except.ok (some (instantiate (delimiter_class d), ⟨chan, c, gd, d, false⟩)) := by
  rw [streamNext]
  simp only [if_neg hc]
  simp [hc]

/-- `streamNext` at a group boundary on an exhausted channel: clean
StopIteration. -/
theorem streamNext_stop_empty (gd : Bool) (d : Option Nat) (gf : Bool) :
    streamNext ⟨[], 0, gd, d, gf⟩ = Except.ok none := by
  rw [streamNext]
  simp [read_varint]

/-- `streamNext` at a group boundary whose group-count varint decodes to
zero: clean StopIteration. -/
theorem streamNext_stop_zero (chan rest : List Nat) (gd : Bool) (d : Option Nat) (gf : Bool)
    (h : read_varint chan = Except.ok (0, rest)) :
    streamNext ⟨chan, 0, gd, d, gf⟩ = Except.ok none := by
  rw [streamNext]
  simp [h]

theorem readAllAux_succ (fuel : Nat) (s : StreamR) (acc : List PyVal) :
    readAllAux (fuel + 1) s acc =
      match streamNext s with
      | .error _ => some (.error ())
      | .ok none => some (.ok acc.reverse)
      | .ok (some (v, s')) => readAllAux fuel s' (v :: acc) := rfl

theorem readAllAux_step {s : StreamR} {v : PyVal} {s' : StreamR}
    (h : streamNext s = Except.ok (some (v, s'))) (fuel : Nat) (acc : List PyVal) :
    readAllAux (fuel + 1) s acc = readAllAux fuel s' (v :: acc) := by
  rw [readAllAux_succ, h]

theorem readAllAux_stop {s : StreamR} (h : streamNext s = Except.ok none)
    (fuel : Nat) (acc : List PyVal) :
    readAllAux (fuel + 1) s acc = some (.ok acc.reverse) := by
  rw [readAllAux_succ, h]

theorem readAllAux_err {s : StreamR} (h : streamNext s = Except.error ())
    (fuel : Nat) (acc : List PyVal) :
    readAllAux (fuel + 1) s acc = some (.error ()) := by
  rw [readAllAux_succ, h]

/-- Running the iterator through a whole group of `msgs.length` remaining
messages (the exact current count): the messages are yielded in order and
the group flag ends up equal to the `group_delimiter` option. -/
theorem readAllAux_msgs_exact (msgs : List (List Nat)) :
    (∀ m ∈ msgs, m ≠ []) → msgs ≠ [] →
    ∀ f rest gd d acc,
      readAllAux (f + msgs.length) ⟨encodeMsgs msgs ++ rest, msgs.length, gd, d, false⟩ acc
        = readAllAux f ⟨rest, 0, gd, d, gd⟩ ((msgs.map PyVal.bytes).reverse ++ acc) := by
  induction msgs with
  | nil => intro _ h; exact absurd rfl h
  | cons m ms ih =>
    intro hne _ f rest gd d acc
    have hm : m ≠ [] := hne m (by simp)
    cases ms with
    | nil =>
      have hstep := streamNext_msg m [] rest 0 gd d hm
      simp only [List.length_cons, List.length_nil, Nat.zero_add] at *
      rw [readAllAux_step (by simpa using hstep) f acc]
      simp [encodeMsgs]
    | cons m' ms' =>
      have hstep := streamNext_msg m (m' :: ms') rest (m' :: ms').length gd d hm
      have hflag : (gd && ((m' :: ms').length == 0)) = false := by simp
      rw [hflag] at hstep
      have hlen : (m :: m' :: ms').length = (m' :: ms').length + 1 := rfl
      rw [hlen, ← Nat.add_assoc]
      rw [readAllAux_step hstep (f + (m' :: ms').length) acc]
      rw [ih (fun x hx => hne x (by simp [hx])) (by simp) f rest gd d (PyVal.bytes m :: acc)]
      simp

/-- Running the iterator through encoded messages when the declared count
exceeds their number: all of them are yielded and the count keeps the
surplus, the group flag staying clear. -/
theorem readAllAux_msgs_surplus (msgs : List (List Nat)) :
    (∀ m ∈ msgs, m ≠ []) →
    ∀ c, msgs.length < c →
    ∀ f rest gd d acc,
      readAllAux (f + msgs.length) ⟨encodeMsgs msgs ++ rest, c, gd, d, false⟩ acc
        = readAllAux f ⟨rest, c - msgs.length, gd, d, false⟩
            ((msgs.map PyVal.bytes).reverse ++ acc) := by
  induction msgs with
  | nil => intro _ c _ f rest gd d acc; simp [encodeMsgs]
  | cons m ms ih =>
    intro hne c hc f rest gd d acc
    have hm : m ≠ [] := hne m (by simp)
    obtain ⟨c', rfl⟩ : ∃ c', c = c' + 1 := ⟨c - 1, by omega⟩
    have hc' : ms.length < c' := by simp at hc; omega
    have hflag : (gd && (c' == 0)) = false := by
      have : (c' == 0) = false := beq_eq_false_iff_ne.mpr (by omega)
      rw [this, Bool.and_false]
    have hstep := streamNext_msg m ms rest c' gd d hm
    rw [hflag] at hstep
    have hlen : (m :: ms).length = ms.length + 1 := rfl
    rw [hlen, ← Nat.add_assoc]
    rw [readAllAux_step hstep (f + ms.length) acc]
    rw [ih (fun x hx => hne x (by simp [hx])) c' hc' f rest gd d (PyVal.bytes m :: acc)]
    have : c' + 1 - (ms.length + 1) = c' - ms.length := by omega
    rw [this]
    simp

/-- Iterator steps needed to read a group sequence to completion: one per
message, one per group-count varint, one for the final clean stop. -/
def readSteps (groups : List (List (List Nat))) : Nat :=
  (groups.map (fun g => g.length + 1)).sum + 1

/-- The tail of the expected yield sequence when a group boundary is
pending: nothing if no groups remain, else one delimiter then the
remaining groups. -/
def delimTail (d : Option Nat) (groups : List (List (List Nat))) : List PyVal :=
  match groups with
  | [] => []
  | _ :: _ => instantiate (delimiter_class d) :: expectedRead d groups

theorem expectedRead_cons (d : Option Nat) (g : List (List Nat))
    (gs : List (List (List Nat))) :
    expectedRead d (g :: gs) = g.map PyVal.bytes ++ delimTail d gs := by
  cases gs <;> rfl

theorem writeOut_cons (g : List (List Nat)) (gs : List (List (List Nat))) :
    writeOut (g :: gs) = encodeVarint g.length ++ (encodeMsgs g ++ writeOut gs) := by
  simp [writeOut, encodeGroup]

/-- Reading a group sequence with `group_delimiter=True` from the state
just after a completed group (group flag set): one delimiter is yielded
before each further group, none after the last. -/
theorem readAllAux_groups_pending (groups : List (List (List Nat))) :
    (∀ g ∈ groups, g ≠ []) → (∀ g ∈ groups, ∀ m ∈ g, m ≠ []) →
    ∀ f d acc,
      readAllAux (f + readSteps groups) ⟨writeOut groups, 0, true, d, true⟩ acc
        = some (.ok (acc.reverse ++ delimTail d groups)) := by
  induction groups with
  | nil =>
    intro _ _ f d acc
    have h1 : readSteps [] = 1 := rfl
    rw [h1, show writeOut [] = [] from rfl]
    rw [readAllAux_stop (streamNext_stop_empty true d true) f acc]
    simp [delimTail]
  | cons g gs ih =>
    intro hg hm f d acc
    have hgne : g ≠ [] := hg g (by simp)
    have hcne : g.length ≠ 0 := by
      cases g with
      | nil => exact absurd rfl hgne
      | cons a t => simp
    have hdelim : streamNext ⟨writeOut (g :: gs), 0, true, d, true⟩
        = Except.ok (some (instantiate (delimiter_class d),
            ⟨encodeMsgs g ++ writeOut gs, g.length, true, d, false⟩)) := by
      rw [writeOut_cons, streamNext_norm g.length _ true d true hcne,
        streamNext_delim _ _ true d hcne]
    have hfuel : f + readSteps (g :: gs) = ((f + readSteps gs) + g.length) + 1 := by
      simp [readSteps]
      omega
    rw [hfuel, readAllAux_step hdelim ((f + readSteps gs) + g.length) acc]
    rw [readAllAux_msgs_exact g (hm g (by simp)) hgne (f + readSteps gs) (writeOut gs) true d
      (instantiate (delimiter_class d) :: acc)]
    rw [ih (fun x hx => hg x (by simp [hx])) (fun x hx => hm x (by simp [hx])) f d
      ((g.map PyVal.bytes).reverse ++ (instantiate (delimiter_class d) :: acc))]
    rw [delimTail, expectedRead_cons]
    simp

/-- Reading a freshly opened group sequence with `group_delimiter=True`:
the yields are the messages of each group in order with exactly one
delimiter between consecutive groups. -/
theorem readAllAux_groups_start (groups : List (List (List Nat))) :
    (∀ g ∈ groups, g ≠ []) → (∀ g ∈ groups, ∀ m ∈ g, m ≠ []) →
    ∀ f d acc,
      readAllAux (f + readSteps groups) ⟨writeOut groups, 0, true, d, false⟩ acc
        = some (.ok (acc.reverse ++ expectedRead d groups)) := by
  intro hg hm f d acc
  cases groups with
  | nil =>
    have h1 : readSteps [] = 1 := rfl
    rw [h1, show writeOut [] = [] from rfl]
    rw [readAllAux_stop (streamNext_stop_empty true d false) f acc]
    simp [expectedRead]
  | cons g gs =>
    have hgne : g ≠ [] := hg g (by simp)
    obtain ⟨m, ms, rfl⟩ : ∃ m ms, g = m :: ms := by
      cases g with
      | nil => exact absurd rfl hgne
      | cons m ms => exact ⟨m, ms, rfl⟩
    have hmne : m ≠ [] := hm (m :: ms) (by simp) m (by simp)
    have hstep : streamNext ⟨writeOut ((m :: ms) :: gs), 0, true, d, false⟩
        = Except.ok (some (PyVal.bytes m,
            ⟨encodeMsgs ms ++ writeOut gs, ms.length, true, d, true && (ms.length == 0)⟩)) := by
      rw [writeOut_cons, streamNext_norm (m :: ms).length _ true d false (by simp),
        show (m :: ms).length = ms.length + 1 from rfl, streamNext_msg m ms _ ms.length true d hmne]
    cases ms with
    | nil =>
      have hflag : (true && ((List.length (α := List Nat) []) == 0)) = true := by simp
      rw [hflag] at hstep
      have hfuel : f + readSteps ([m] :: gs) = ((f + 1) + readSteps gs) + 1 := by
        simp [readSteps]
        omega
      rw [hfuel, readAllAux_step hstep ((f + 1) + readSteps gs) acc]
      have hch : encodeMsgs ([] : List (List Nat)) ++ writeOut gs = writeOut gs := by
        simp [encodeMsgs]
      rw [hch]
      simp only [List.length_nil]
      rw [readAllAux_groups_pending gs (fun x hx => hg x (by simp [hx]))
        (fun x hx => hm x (by simp [hx])) (f + 1) d (PyVal.bytes m :: acc)]
      rw [expectedRead_cons]
      simp
    | cons m' ms' =>
      have hflag : (true && (((m' :: ms').length) == 0)) = false := by simp
      rw [hflag] at hstep
      have hfuel : f + readSteps ((m :: m' :: ms') :: gs)
          = (((f + 1) + readSteps gs) + (m' :: ms').length) + 1 := by
        simp [readSteps]
        omega
      rw [hfuel, readAllAux_step hstep (((f + 1) + readSteps gs) + (m' :: ms').length) acc]
      rw [readAllAux_msgs_exact (m' :: ms')
        (fun x hx => hm (m :: m' :: ms') (by simp) x (by simp [hx])) (by simp)
        ((f + 1) + readSteps gs) (writeOut gs) true d (PyVal.bytes m :: acc)]
      rw [readAllAux_groups_pending gs (fun x hx => hg x (by simp [hx]))
        (fun x hx => hm x (by simp [hx])) (f + 1) d _]
      rw [expectedRead_cons]
      simp

/-- With a non-positive `buffer_size` the write loop never auto-flushes: it
only appends the messages to the pending buffer. -/
theorem writeLoop_nonpos (objs : List (List Nat)) :
    ∀ (s : WStream) (base idx : Nat), s.buffer_size ≤ 0 →
      writeLoop s base idx objs = { s with write_buff := s.write_buff ++ objs } := by
  induction objs with
  | nil => intro s base idx h; simp [writeLoop]
  | cons o rest ih =>
    intro s base idx h
    rw [writeLoop]
    have hcond : ¬(s.buffer_size > 0 ∧ (idx + base) ≠ 0 ∧ ((idx + base : Int) % s.buffer_size = 0)) := by
      intro hc
      omega
    rw [if_neg hcond]
    rw [ih { s with write_buff := s.write_buff ++ [o] } base (idx + 1) h]
    simp

/-- `write` with a negative `buffer_size` only buffers: no flush, nothing
written to the channel. -/
theorem write_neg (s : WStream) (objs : List (List Nat)) (h : s.buffer_size < 0) :
    write s objs = { s with write_buff := s.write_buff ++ objs } := by
  rw [write]
  rw [writeLoop_nonpos objs s s.write_buff.length 0 (by omega)]
  rw [if_neg (by omega)]

/-- `write` with `buffer_size = 0` appends the messages and flushes at
once. -/
theorem write_zero (s : WStream) (objs : List (List Nat)) (h : s.buffer_size = 0) :
    write s objs = flush { s with write_buff := s.write_buff ++ objs } := by
  rw [write]
  rw [writeLoop_nonpos objs s s.write_buff.length 0 (by omega)]
  rw [if_pos h]

theorem flush_of_ne (s : WStream) (h : s.write_buff ≠ []) :
    flush s = { s with
      out := s.out ++ encodeVarint s.write_buff.length ++ encodeMsgs s.write_buff,
      write_buff := [] } := by
  rw [flush, if_neg (by simp [h])]

theorem flush_of_nil (s : WStream) (h : s.write_buff = []) : flush s = s := by
  rw [flush, if_pos (by simp [h])]

/-- One write-then-flush round per group with `buffer_size = -1` appends
exactly that group's encoding to the channel. -/
theorem foldl_write_flush (groups : List (List (List Nat))) :
    (∀ g ∈ groups, g ≠ []) → ∀ out : List Nat,
      groups.foldl (fun s g => flush (write s g)) ⟨out, [], -1⟩
        = ⟨out ++ writeOut groups, [], -1⟩ := by
  induction groups with
  | nil => intro _ out; simp [writeOut]
  | cons g gs ih =>
    intro hg out
    rw [List.foldl_cons]
    have h1 : write ⟨out, [], -1⟩ g = ⟨out, g, -1⟩ := by
      rw [write_neg ⟨out, [], -1⟩ g (by norm_num)]
      simp
    have h2 : flush ⟨out, g, -1⟩ = ⟨out ++ encodeGroup g, [], -1⟩ := by
      rw [flush_of_ne ⟨out, g, -1⟩ (hg g (by simp))]
      simp [encodeGroup]
    rw [h1, h2, ih (fun x hx => hg x (by simp [hx])) (out ++ encodeGroup g)]
    simp [writeOut]

/-- The channel bytes produced by the real `write`/`flush`/`close` pipeline
are the concatenated group encodings. -/
theorem writeGroups_eq (groups : List (List (List Nat))) (hg : ∀ g ∈ groups, g ≠ []) :
    writeGroups groups = writeOut groups := by
  rw [writeGroups, initW, foldl_write_flush groups hg [], closeW]
  rw [flush_of_nil _ rfl]
  simp

theorem encodeVarint_length_pos (n : Nat) : 1 ≤ (encodeVarint n).length := by
  rw [encodeVarint_eq]
  split <;> simp

theorem encodeMsgs_length_ge (g : List (List Nat)) :
    (∀ m ∈ g, m ≠ []) → g.length ≤ (encodeMsgs g).length := by
  induction g with
  | nil => intro _; simp [encodeMsgs]
  | cons m ms ih =>
    intro hm
    have h1 : 1 ≤ m.length := by
      have := hm m (by simp)
      cases m with
      | nil => exact absurd rfl this
      | cons a t => simp
    have h2 := encodeVarint_length_pos m.length
    have h3 := ih (fun x hx => hm x (by simp [hx]))
    have : encodeMsgs (m :: ms) = encodeVarint m.length ++ m ++ encodeMsgs ms := by
      simp [encodeMsgs]
    rw [this]
    simp only [List.length_append, List.length_cons]
    omega

/-- The fixed fuel of `readAll` covers a full read of any valid group
sequence: each message occupies at least two channel bytes and each group
count at least one. -/
theorem readSteps_le (groups : List (List (List Nat))) :
    (∀ g ∈ groups, ∀ m ∈ g, m ≠ []) → readSteps groups ≤ (writeOut groups).length + 2 := by
  induction groups with
  | nil => intro _; simp [readSteps, writeOut]
  | cons g gs ih =>
    intro hm
    have h1 := encodeVarint_length_pos g.length
    have h2 := encodeMsgs_length_ge g (hm g (by simp))
    have h3 := ih (fun x hx => hm x (by simp [hx]))
    have h4 : readSteps (g :: gs) = g.length + 1 + ((gs.map (fun g => g.length + 1)).sum + 1) := by
      simp [readSteps]
      omega
    have h5 : (writeOut (g :: gs)).length
        = (encodeVarint g.length).length + (encodeMsgs g).length + (writeOut gs).length := by
      rw [writeOut_cons]
      simp
      omega
    rw [h4, h5]
    have h6 : readSteps gs = (gs.map (fun g => g.length + 1)).sum + 1 := rfl
    omega

/-- Iterating a fresh read-mode stream with delimiters over the wire image
of a valid group sequence yields each group's messages with one delimiter
between consecutive groups, ending cleanly. -/
theorem readAll_writeOut (groups : List (List (List Nat))) (d : Option Nat)
    (hg : ∀ g ∈ groups, g ≠ []) (hm : ∀ g ∈ groups, ∀ m ∈ g, m ≠ []) :
    readAll (writeOut groups) true d = some (.ok (expectedRead d groups)) := by
  rw [readAll]
  have hle : readSteps groups ≤ (writeOut groups).length + 2 := readSteps_le groups hm
  obtain ⟨f, hf⟩ : ∃ f, (writeOut groups).length + 2 = f + readSteps groups :=
    ⟨(writeOut groups).length + 2 - readSteps groups, by omega⟩
  rw [hf, readAllAux_groups_start groups hg hm f d []]
  simp

theorem countDelims_nil (d : Option Nat) : countDelims d [] = 0 := rfl

theorem countDelims_bytes_append (d : Option Nat) (ms : List (List Nat)) (rest : List PyVal) :
    countDelims d (ms.map PyVal.bytes ++ rest) = countDelims d rest := by
  rw [countDelims, countDelims, List.filter_append]
  have h : (ms.map PyVal.bytes).filter (fun v => v == instantiate (delimiter_class d)) = [] := by
    rw [List.filter_eq_nil_iff]
    intro a ha
    obtain ⟨m, _, rfl⟩ := List.mem_map.mp ha
    cases d <;> simp [instantiate, delimiter_class]
  rw [h]
  simp

theorem countDelims_delim_cons (d : Option Nat) (rest : List PyVal) :
    countDelims d (instantiate (delimiter_class d) :: rest) = countDelims d rest + 1 := by
  rw [countDelims, countDelims, List.filter_cons]
  simp

/-- The number of delimiters yielded for a non-empty group sequence is one
fewer than the number of groups: there is no delimiter after the final
group. -/
theorem countDelims_expectedRead (d : Option Nat) (groups : List (List (List Nat))) :
    groups ≠ [] → countDelims d (expectedRead d groups) = groups.length - 1 := by
  induction groups with
  | nil => intro h; exact absurd rfl h
  | cons g gs ih =>
    intro _
    rw [expectedRead_cons, countDelims_bytes_append]
    cases gs with
    | nil => rfl
    | cons g' gs' =>
      rw [delimTail, countDelims_delim_cons, ih (by simp)]
      simp

/-- Every value `Stream.__next__` yields is a delimiter instance (exactly
when the group flag was set) or raw message bytes. -/
theorem streamNext_yield_shape (s : StreamR) (v : PyVal) (s' : StreamR)
    (h : streamNext s = Except.ok (some (v, s'))) :
    (s.gflag = true ∧ v = instantiate (delimiter_class s.delimiter))
    ∨ (s.gflag = false ∧ ∃ bs, v = PyVal.bytes bs) := by
  rw [streamNext] at h
  split at h
  · simp at h
  · split at h
    · split at h
      · left
        refine ⟨by assumption, ?_⟩
        simp at h
        exact h.1.symm
      · right
        refine ⟨by simp_all, ?_⟩
        split at h
        · simp at h
        · split at h
          · simp at h
          · split at h
            · simp at h
            · simp at h
              exact ⟨_, h.1.symm⟩
    · simp at h

/-- Whenever the synchronous `Stream.__next__` succeeds, the asynchronous
`Stream.__anext__` on the same state returns the identical result: the two
paths differ only when the synchronous one raises on a partial read. -/
theorem streamAnext_agrees (s : StreamR) (r : Option (PyVal × StreamR))
    (h : streamNext s = Except.ok r) : streamAnext s = Except.ok r := by
  rw [streamNext] at h
  rw [streamAnext]
  simp only [async_read_varint_eq]
  cases h1 : (if s.count = 0 then read_varint s.chan else Except.ok (s.count, s.chan)) with
  | error e => rw [h1] at h; simp at h
  | ok p =>
    obtain ⟨cnt, chan₁⟩ := p
    rw [h1] at h
    simp only at h ⊢
    by_cases hcnt : cnt ≠ 0
    · rw [if_pos hcnt] at h ⊢
      by_cases hgf : s.gflag = true
      · rw [if_pos hgf] at h ⊢
        exact h
      · rw [if_neg hgf] at h ⊢
        cases h2 : read_varint chan₁ with
        | error e => rw [h2] at h; simp at h
        | ok q =>
          obtain ⟨size, chan₂⟩ := q
          rw [h2] at h
          dsimp only at h ⊢
          by_cases hsz : size = 0
          · rw [if_pos hsz] at h
            simp at h
          · rw [if_neg hsz] at h ⊢
            by_cases hlen : (chan₂.take size).length < size
            · rw [if_pos hlen] at h
              simp at h
            · rw [if_neg hlen] at h
              exact h
    · rw [if_neg hcnt] at h ⊢
      exact h

/-- C1: for every finite message sequence (each message serializing to a
non-empty byte-string) partitioned into non-empty groups, writing the
groups with the real `write`/`flush`/`close` operations and then iterating
a fresh read-mode stream over the resulting channel bytes yields exactly
the original message byte-strings in order, with the same group partition
(the yield sequence is each group's messages with one delimiter instance
between consecutive groups). -/
theorem roundtrip_write_read (groups : List (List (List Nat))) (d : Option Nat)
    (hg : ∀ g ∈ groups, g ≠ []) (hm : ∀ g ∈ groups, ∀ m ∈ g, m ≠ []) :
    readAll (writeGroups groups) true d = some (.ok (expectedRead d groups)) := by
  rw [writeGroups_eq groups hg]
  exact readAll_writeOut groups d hg hm

theorem roundtrip_write_read_witness :
    readAll (writeGroups [[[65]], [[66], [67, 67]]]) true none
      = some (.ok [PyVal.bytes [65], PyVal.noneVal, PyVal.bytes [66], PyVal.bytes [67, 67]]) := by
  rw [roundtrip_write_read [[[65]], [[66], [67, 67]]] none (by decide) (by decide)]
  rfl

/-- C6 (amended): with delimiter emission enabled the reader yields, for a
non-empty valid group sequence, each group's messages with exactly one
delimiter between consecutive groups, so reading a 2-group stream of sizes
6 and 6 yields 6 messages, 1 delimiter, 6 messages; the number of
delimiters equals the number of completed groups minus one (no delimiter
follows the final group). -/
theorem delimiter_emission (d : Option Nat) :
    (∀ g1 g2 : List (List Nat), (∀ m ∈ g1, m ≠ []) → (∀ m ∈ g2, m ≠ []) →
      g1.length = 6 → g2.length = 6 →
      readAll (writeGroups [g1, g2]) true d
        = some (.ok (g1.map PyVal.bytes
            ++ instantiate (delimiter_class d) :: g2.map PyVal.bytes))
      ∧ countDelims d (g1.map PyVal.bytes
            ++ instantiate (delimiter_class d) :: g2.map PyVal.bytes) = 1)
    ∧ (∀ groups : List (List (List Nat)), groups ≠ [] →
        (∀ g ∈ groups, g ≠ []) → (∀ g ∈ groups, ∀ m ∈ g, m ≠ []) →
        readAll (writeGroups groups) true d = some (.ok (expectedRead d groups))
        ∧ countDelims d (expectedRead d groups) = groups.length - 1) := by
  constructor
  · intro g1 g2 hm1 hm2 h1 h2
    have hg1 : g1 ≠ [] := by intro hc; rw [hc] at h1; simp at h1
    have hg2 : g2 ≠ [] := by intro hc; rw [hc] at h2; simp at h2
    have hg : ∀ g ∈ [g1, g2], g ≠ [] := by
      intro g hgmem
      simp only [List.mem_cons, List.mem_singleton, List.not_mem_nil, or_false] at hgmem
      rcases hgmem with rfl | rfl
      · exact hg1
      · exact hg2
    have hm : ∀ g ∈ [g1, g2], ∀ m ∈ g, m ≠ [] := by
      intro g hgmem
      simp only [List.mem_cons, List.mem_singleton, List.not_mem_nil, or_false] at hgmem
      rcases hgmem with rfl | rfl
      · exact hm1
      · exact hm2
    have hexp : expectedRead d [g1, g2]
        = g1.map PyVal.bytes ++ instantiate (delimiter_class d) :: g2.map PyVal.bytes := by
      rw [expectedRead_cons, delimTail, expectedRead_cons, delimTail]
      simp
    constructor
    · rw [writeGroups_eq _ hg, readAll_writeOut [g1, g2] d hg hm, hexp]
    · rw [← hexp, countDelims_expectedRead d [g1, g2] (by simp)]
      rfl
  · intro groups hne hg hm
    exact ⟨by rw [writeGroups_eq _ hg]; exact readAll_writeOut groups d hg hm,
      countDelims_expectedRead d groups hne⟩

theorem delimiter_emission_witness :
    readAll (writeGroups [List.replicate 6 [65], List.replicate 6 [66]]) true none
      = some (.ok ((List.replicate 6 [65]).map PyVal.bytes
          ++ PyVal.noneVal :: (List.replicate 6 [66]).map PyVal.bytes))
    ∧ countDelims none ((List.replicate 6 [65]).map PyVal.bytes
          ++ PyVal.noneVal :: (List.replicate 6 [66]).map PyVal.bytes) = 1 :=
  (delimiter_emission none).1 (List.replicate 6 [65]) (List.replicate 6 [66])
    (by decide) (by decide) (by decide) (by decide)

/-- C6 counterexample: reading a completed 1-group stream with delimiters
enabled yields no delimiter at all, so the number of delimiters (0) does
not equal the number of completed groups (1). -/
theorem delimiter_count_cex :
    readAll (writeGroups [[[65]]]) true none = some (.ok [PyVal.bytes [65]])
    ∧ countDelims none [PyVal.bytes [65]]
        ≠ ([[[65]]] : List (List (List Nat))).length := by
  constructor
  · rfl
  · decide

/-- C7: at a group boundary (`_count = 0`), an exhausted channel makes
`Stream.__next__` end the iteration cleanly (StopIteration, no error), and
a group-count varint decoding to zero also terminates the iteration
cleanly instead of yielding an empty group. -/
theorem group_boundary_stop :
    (∀ (gd : Bool) (d : Option Nat) (gf : Bool),
      streamNext ⟨[], 0, gd, d, gf⟩ = Except.ok none)
    ∧ (∀ (chan rest : List Nat) (gd : Bool) (d : Option Nat) (gf : Bool),
        read_varint chan = Except.ok (0, rest) →
        streamNext ⟨chan, 0, gd, d, gf⟩ = Except.ok none) :=
  ⟨fun gd d gf => streamNext_stop_empty gd d gf,
   fun chan rest gd d gf h => streamNext_stop_zero chan rest gd d gf h⟩

theorem group_boundary_stop_witness :
    streamNext ⟨[], 0, true, none, false⟩ = Except.ok none
    ∧ streamNext ⟨[0, 9, 9], 0, true, none, false⟩ = Except.ok none :=
  ⟨group_boundary_stop.1 true none false,
   group_boundary_stop.2 [0, 9, 9] [9, 9] true none false rfl⟩

/-- C10: on a read-mode stream with `group_delimiter=True` and no
`delimiter_cls`, every group-boundary yield is `None` (the instantiation
of `delimiter_class() = NoneType`) and every other yield is raw message
bytes, so an `isinstance` check against `delimiter_class()` distinguishes
the two: it holds for the delimiter and fails for every byte-string. -/
theorem none_delimiter_distinguishable (s : StreamR) (v : PyVal) (s' : StreamR)
    (hd : s.delimiter = none)
    (h : streamNext s = Except.ok (some (v, s'))) :
    (s.gflag = true → v = PyVal.noneVal ∧ isInstance v (delimiter_class s.delimiter) = true)
    ∧ (s.gflag = false →
        (∃ bs, v = PyVal.bytes bs) ∧ isInstance v (delimiter_class s.delimiter) = false) := by
  constructor
  · intro hgft
    rcases streamNext_yield_shape s v s' h with ⟨_, hv⟩ | ⟨hgf, _⟩
    · rw [hd] at hv
      have hvn : v = PyVal.noneVal := hv
      exact ⟨hvn, by rw [hvn, hd]; rfl⟩
    · rw [hgft] at hgf
      simp at hgf
  · intro hgff
    rcases streamNext_yield_shape s v s' h with ⟨hgf, _⟩ | ⟨_, bs, hv⟩
    · rw [hgff] at hgf
      simp at hgf
    · exact ⟨⟨bs, hv⟩, by rw [hv, hd]; rfl⟩

theorem none_delimiter_distinguishable_witness :
    (PyVal.noneVal = PyVal.noneVal
      ∧ isInstance PyVal.noneVal (delimiter_class none) = true)
    ∧ ((∃ bs, PyVal.bytes [65] = PyVal.bytes bs)
      ∧ isInstance (PyVal.bytes [65]) (delimiter_class none) = false) :=
  ⟨(none_delimiter_distinguishable ⟨[1, 1, 65], 1, true, none, true⟩
      PyVal.noneVal ⟨[1, 1, 65], 1, true, none, false⟩ rfl rfl).1 rfl,
   (none_delimiter_distinguishable ⟨[1, 65], 1, false, none, false⟩
      (PyVal.bytes [65]) ⟨[], 0, false, none, false⟩ rfl rfl).2 rfl⟩

/-- C4 (code bug): the synchronous and asynchronous read paths diverge on
a partial read.  On the channel bytes `[1, 5, 65]` (group count 1, declared
message size 5, only one payload byte remaining), `Stream.__next__` raises
EOFError while `Stream.__anext__` — which lacks the partial-read length
check — yields the 1-byte partial message.  (Conversely
`streamAnext_agrees` shows the two paths coincide whenever the synchronous
one succeeds.) -/
theorem async_partial_read_divergence :
    streamNext ⟨[1, 5, 65], 0, false, none, false⟩ = Except.error ()
    ∧ streamAnext ⟨[1, 5, 65], 0, false, none, false⟩
        = Except.ok (some (PyVal.bytes [65], ⟨[], 0, false, none, false⟩)) :=
  ⟨rfl, rfl⟩

/-- C3: every truncation condition raises an EOFError during reading:
(1) a multi-byte varint whose continuation bytes never terminate before the
channel ends; (2) a message-size varint decoding to 0 (treated as
truncation, not as an empty message); (3) a declared message size
exceeding the bytes remaining in the channel; (4) a group count exceeding
the number of encoded messages that remain. -/
theorem truncation_errors :
    (∀ (b : Nat) (bs : List Nat), Nat.testBit b 7 = true →
        (∀ x ∈ bs, Nat.testBit x 7 = true) → read_varint (b :: bs) = Except.error ())
    ∧ (∀ (s : StreamR) (rest : List Nat), s.count ≠ 0 → s.gflag = false →
        read_varint s.chan = Except.ok (0, rest) → streamNext s = Except.error ())
    ∧ (∀ (s : StreamR) (S : Nat) (rest : List Nat), s.count ≠ 0 → s.gflag = false →
        read_varint s.chan = Except.ok (S, rest) → S ≠ 0 → rest.length < S →
        streamNext s = Except.error ())
    ∧ (∀ (N : Nat) (msgs : List (List Nat)) (gd : Bool) (d : Option Nat),
        (∀ m ∈ msgs, m ≠ []) → msgs.length < N →
        readAll (encodeVarint N ++ encodeMsgs msgs) gd d = some (.error ())) := by
  refine ⟨?_, ?_, ?_, ?_⟩
  · intro b bs hb hall
    simp [read_varint, varintBytes_all_cont bs b hb hall]
  · intro s rest hc hgf h
    simp [streamNext, hc, hgf, h]
  · intro s S rest hc hgf h hS hrest
    have htake : (rest.take S).length < S := by
      rw [List.length_take]
      omega
    simp [streamNext, hc, hgf, h, hS, htake]
    omega
  · intro N msgs gd d hmne hlen
    rw [readAll]
    cases msgs with
    | nil =>
      have hN : N ≠ 0 := by simp at hlen; omega
      have hstep : streamNext ⟨encodeVarint N ++ encodeMsgs [], 0, gd, d, false⟩
          = Except.error () := by
        rw [show encodeMsgs ([] : List (List Nat)) = [] from rfl]
        rw [streamNext_norm N [] gd d false hN]
        simp [streamNext, hN, read_varint]
      exact readAllAux_err hstep _ []
    | cons m ms =>
      obtain ⟨c, rfl⟩ : ∃ c, N = c + 1 := ⟨N - 1, by omega⟩
      have hmsle : ms.length < c := by simp at hlen; omega
      have hmne' : ∀ x ∈ ms, x ≠ [] := fun x hx => hmne x (by simp [hx])
      have hflag : (gd && (c == 0)) = false := by
        have hcz : (c == 0) = false := beq_eq_false_iff_ne.mpr (by omega)
        rw [hcz, Bool.and_false]
      have hstep : streamNext ⟨encodeVarint (c + 1) ++ encodeMsgs (m :: ms), 0, gd, d, false⟩
          = Except.ok (some (PyVal.bytes m, ⟨encodeMsgs ms ++ [], c, gd, d, false⟩)) := by
        rw [streamNext_norm (c + 1) (encodeMsgs (m :: ms)) gd d false (by omega)]
        rw [show encodeMsgs (m :: ms) = encodeMsgs (m :: ms) ++ [] from by simp]
        rw [streamNext_msg m ms [] c gd d (hmne m (by simp)), hflag]
      have herr : streamNext ⟨[], c - ms.length, gd, d, false⟩ = Except.error () := by
        have hcz : c - ms.length ≠ 0 := by omega
        simp [streamNext, hcz, read_varint]
      have hge : ms.length + 1 ≤ (encodeMsgs (m :: ms)).length := by
        have h1 := encodeMsgs_length_ge (m :: ms) hmne
        simpa using h1
      obtain ⟨f, hf⟩ : ∃ f, (encodeVarint (c + 1) ++ encodeMsgs (m :: ms)).length + 2
          = (((f + 1) + ms.length) + 1) := by
        refine ⟨(encodeVarint (c + 1) ++ encodeMsgs (m :: ms)).length - ms.length, ?_⟩
        simp only [List.length_append]
        omega
      rw [hf]
      rw [readAllAux_step hstep ((f + 1) + ms.length) []]
      rw [readAllAux_msgs_surplus ms hmne' c hmsle (f + 1) [] gd d [PyVal.bytes m]]
      exact readAllAux_err herr f _

theorem truncation_errors_witness :
    read_varint [129, 128] = Except.error ()
    ∧ streamNext ⟨[0], 1, false, none, false⟩ = Except.error ()
    ∧ streamNext ⟨[5, 65], 1, false, none, false⟩ = Except.error ()
    ∧ readAll (encodeVarint 2 ++ encodeMsgs [[65]]) false none = some (.error ()) :=
  ⟨truncation_errors.1 129 [128] (by decide) (by decide),
   truncation_errors.2.1 ⟨[0], 1, false, none, false⟩ [] (by decide) rfl rfl,
   truncation_errors.2.2.1 ⟨[5, 65], 1, false, none, false⟩ 5 [65]
     (by decide) rfl rfl (by decide) (by decide),
   truncation_errors.2.2.2 2 [[65]] false none (by decide) (by decide)⟩

/-- The write loop never auto-flushes when no loop position is a non-zero
multiple of the buffer size. -/
theorem writeLoop_no_trigger (objs : List (List Nat)) :
    ∀ (s : WStream) (base idx : Nat),
      (∀ j, j < objs.length →
        ¬(idx + j + base ≠ 0 ∧ (((idx + j + base : Nat) : Int) % s.buffer_size = 0))) →
      writeLoop s base idx objs = { s with write_buff := s.write_buff ++ objs } := by
  induction objs with
  | nil => intro s base idx _; simp [writeLoop]
  | cons o rest ih =>
    intro s base idx hno
    rw [writeLoop]
    have h0 := hno 0 (by simp)
    simp only [Nat.add_zero] at h0
    have hcond : ¬(s.buffer_size > 0 ∧ (idx + base) ≠ 0
        ∧ ((idx + base : Int) % s.buffer_size = 0)) := by
      intro hc
      apply h0
      refine ⟨hc.2.1, ?_⟩
      push_cast
      exact hc.2.2
    rw [if_neg hcond]
    rw [ih { s with write_buff := s.write_buff ++ [o] } base (idx + 1) ?_]
    · simp
    · intro j hj
      intro hcj
      apply hno (j + 1) (by simp; omega)
      refine ⟨by omega, ?_⟩
      rw [show idx + (j + 1) + base = idx + 1 + j + base from by omega]
      exact hcj.2

/-- `buffer_size = 0`, empty buffer: a `write` call makes exactly that
call's messages one group on the channel. -/
theorem write_zero_group (s : WStream) (msgs : List (List Nat)) (h0 : s.buffer_size = 0)
    (hbuf : s.write_buff = []) (hne : msgs ≠ []) :
    write s msgs = { s with out := s.out ++ encodeGroup msgs, write_buff := [] } := by
  rw [write_zero s msgs h0, hbuf]
  rw [flush_of_ne _ (by simp [hne])]
  simp [encodeGroup]

/-- Splitting the message list of one write call splits the loop, with the
loop index advanced. -/
theorem writeLoop_append (xs ys : List (List Nat)) :
    ∀ (s : WStream) (base idx : Nat),
      writeLoop s base idx (xs ++ ys)
        = writeLoop (writeLoop s base idx xs) base (idx + xs.length) ys := by
  induction xs with
  | nil => intro s base idx; simp [writeLoop]
  | cons x xt ih =>
    intro s base idx
    rw [List.cons_append, writeLoop, writeLoop]
    rw [ih _ base (idx + 1)]
    have h : idx + 1 + xt.length = idx + (x :: xt).length := by
      simp
      omega
    rw [h]

/-- One `write` call of a single message onto a buffer already holding a
non-zero multiple of a positive `buffer_size`: the loop flushes before
appending. -/
theorem writeLoop_single_full (s : WStream) (C : Nat) (hCpos : 0 < C)
    (hC : s.buffer_size = (C : Int)) (base idx : Nat) (hsum : idx + base = C) (m : List Nat) :
    writeLoop s base idx [m]
      = { (flush s) with write_buff := (flush s).write_buff ++ [m] } := by
  rw [writeLoop]
  split
  · rw [writeLoop]
  · next hneg =>
    exfalso
    apply hneg
    refine ⟨by rw [hC]; exact_mod_cast hCpos, by omega, ?_⟩
    rw [hC]
    have hcast : ((idx : Int) + (base : Int)) = ((C : Nat) : Int) := by exact_mod_cast hsum
    rw [hcast]
    simp

/-- `buffer_size = C > 0`, buffer holding exactly `C` messages: one more
`write` first auto-flushes the full group of `C`, then buffers the new
message. -/
theorem write_full_single (s : WStream) (C : Nat) (hCpos : 0 < C)
    (hC : s.buffer_size = (C : Int)) (hfull : s.write_buff.length = C) (m : List Nat) :
    write s [m] = { s with out := s.out ++ encodeGroup s.write_buff, write_buff := [m] } := by
  have hbne : s.write_buff ≠ [] := by
    intro hcc
    rw [hcc] at hfull
    simp at hfull
    omega
  rw [write, writeLoop_single_full s C hCpos hC s.write_buff.length 0 (by omega) m]
  rw [if_neg (by rw [hC]; intro hcc; omega : ¬s.buffer_size = 0)]
  rw [flush_of_ne s hbne]
  simp [encodeGroup]

/-- `buffer_size = C > 0`, empty buffer, `C + 1` messages in one call:
exactly one automatic flush of the first `C` messages happens before the
last message is buffered. -/
theorem write_overflow (s : WStream) (msgs : List (List Nat)) (C : Nat) (hCpos : 0 < C)
    (hC : s.buffer_size = (C : Int)) (hempty : s.write_buff = []) (hlen : msgs.length = C + 1) :
    write s msgs
      = { s with out := s.out ++ encodeGroup (msgs.take C), write_buff := msgs.drop C } := by
  have htlen : (msgs.take C).length = C := by
    rw [List.length_take]
    omega
  obtain ⟨mlast, hdrop⟩ : ∃ m, msgs.drop C = [m] := by
    apply List.length_eq_one.mp
    rw [List.length_drop]
    omega
  have hmid : writeLoop s s.write_buff.length 0 (msgs.take C)
      = { s with write_buff := s.write_buff ++ msgs.take C } := by
    apply writeLoop_no_trigger (msgs.take C) s s.write_buff.length 0
    intro j hj
    rw [htlen] at hj
    rw [hempty, hC]
    simp only [List.length_nil, Nat.add_zero, Nat.zero_add]
    intro hcj
    have hmod : ((j : Nat) : Int) % (C : Int) = (j : Int) :=
      Int.emod_eq_of_lt (by omega) (by exact_mod_cast hj)
    have hj0 := hcj.2
    rw [hmod] at hj0
    have : j = 0 := by exact_mod_cast hj0
    exact hcj.1 this
  have hmid2 : { s with write_buff := s.write_buff ++ msgs.take C }
      = { s with write_buff := msgs.take C } := by
    rw [hempty]
    simp
  rw [write]
  conv_lhs => rw [← List.take_append_drop C msgs]
  rw [writeLoop_append, hmid, hmid2, hdrop]
  rw [writeLoop_single_full { s with write_buff := msgs.take C } C hCpos hC
    s.write_buff.length (0 + (msgs.take C).length) (by rw [htlen, hempty]; simp) mlast]
  rw [if_neg (by rw [hC]; intro hcc; omega : ¬s.buffer_size = 0)]
  rw [flush_of_ne _ (by intro hcc; dsimp only at hcc; rw [hcc] at htlen; simp at htlen; omega)]
  simp [encodeGroup, htlen]

/-- C2: the buffering policy of a write-mode stream.  With
`buffer_size = 0` every `write` call flushes immediately, so that call's
messages become one group; with `buffer_size = C > 0`, a `write` onto a
buffer already holding `C` messages auto-flushes the full group of `C`
before buffering more, and writing `C + 1` messages in one call onto an
empty buffer triggers exactly one automatic flush of the first `C`, so
after `close()` the channel holds a group of `C` and a trailing group with
the remainder; with negative `buffer_size` no automatic flush ever occurs
— `write` only buffers, groups are emitted by explicit `flush`/`close`
alone. -/
theorem buffering_policy (s : WStream) (msgs : List (List Nat)) (C : Nat) :
    (s.buffer_size = 0 → s.write_buff = [] → msgs ≠ [] →
      write s msgs = { s with out := s.out ++ encodeGroup msgs, write_buff := [] })
    ∧ (s.buffer_size = (C : Int) → 0 < C → s.write_buff.length = C → ∀ m : List Nat,
      write s [m] = { s with out := s.out ++ encodeGroup s.write_buff, write_buff := [m] })
    ∧ (s.buffer_size = (C : Int) → 0 < C → s.write_buff = [] → msgs.length = C + 1 →
      write s msgs
        = { s with out := s.out ++ encodeGroup (msgs.take C), write_buff := msgs.drop C }
      ∧ closeW (write s msgs)
        = { s with out := s.out ++ encodeGroup (msgs.take C) ++ encodeGroup (msgs.drop C), write_buff := [] })
    ∧ (s.buffer_size < 0 → write s msgs = { s with write_buff := s.write_buff ++ msgs }) := by
  refine ⟨?_, ?_, ?_, ?_⟩
  · intro h0 hbuf hne
    exact write_zero_group s msgs h0 hbuf hne
  · intro hC hCpos hfull m
    exact write_full_single s C hCpos hC hfull m
  · intro hC hCpos hempty hlen
    have hdropne : msgs.drop C ≠ [] := by
      intro hcc
      have := congrArg List.length hcc
      rw [List.length_drop] at this
      simp at this
      omega
    constructor
    · exact write_overflow s msgs C hCpos hC hempty hlen
    · rw [write_overflow s msgs C hCpos hC hempty hlen]
      rw [closeW, flush_of_ne _ hdropne]
      simp [encodeGroup]
  · intro hneg
    exact write_neg s msgs hneg

theorem buffering_policy_witness :
    write ⟨[], [], 0⟩ [[65], [66]] = ⟨[2, 1, 65, 1, 66], [], 0⟩
    ∧ write ⟨[], [[65], [66]], 2⟩ [[67]] = ⟨[2, 1, 65, 1, 66], [[67]], 2⟩
    ∧ write ⟨[], [], 2⟩ [[65], [66], [67]] = ⟨[2, 1, 65, 1, 66], [[67]], 2⟩
    ∧ closeW (write ⟨[], [], 2⟩ [[65], [66], [67]]) = ⟨[2, 1, 65, 1, 66, 1, 1, 67], [], 2⟩
    ∧ write ⟨[], [], -1⟩ [[65], [66]] = ⟨[], [[65], [66]], -1⟩ := by
  refine ⟨?_, ?_, ?_, ?_, ?_⟩
  · rw [(buffering_policy ⟨[], [], 0⟩ [[65], [66]] 0).1 rfl rfl (by decide)]
    rfl
  · rw [(buffering_policy ⟨[], [[65], [66]], 2⟩ ([] : List (List Nat)) 2).2.1 rfl (by decide) rfl [67]]
    rfl
  · rw [((buffering_policy ⟨[], [], 2⟩ [[65], [66], [67]] 2).2.2.1 rfl (by decide) rfl rfl).1]
    rfl
  · rw [((buffering_policy ⟨[], [], 2⟩ [[65], [66], [67]] 2).2.2.1 rfl (by decide) rfl rfl).2]
    rfl
  · rw [(buffering_policy ⟨[], [], -1⟩ [[65], [66]] 0).2.2.2 (by decide)]
    rfl

/-- C5 (modelled from the spec, header support being absent from
src/stream/stream.py): a write-mode stream with a configured header emits
the literal header bytes exactly once, before any group; a read-mode
stream consumes exactly `hdr.length` bytes before decoding the first
group-count varint and never validates their content — reading under any
same-length byte-string in place of the header yields the same results. -/
theorem header_handling (hdr : List Nat) (groups : List (List (List Nat)))
    (gd : Bool) (d : Option Nat) (hg : ∀ g ∈ groups, g ≠ []) :
    writeGroupsHeader hdr groups = hdr ++ writeOut groups
    ∧ (∀ hdr' body : List Nat, hdr'.length = hdr.length →
        readAllHeader hdr (hdr' ++ body) gd d = readAll body gd d) := by
  constructor
  · rw [writeGroupsHeader, writeGroups_eq groups hg]
  · intro hdr' body hlen
    rw [readAllHeader, ← hlen, List.drop_left]

theorem header_handling_witness :
    writeGroupsHeader [71, 65, 77] [[[65]]] = [71, 65, 77] ++ writeOut [[[65]]]
    ∧ readAllHeader [71, 65, 77] ([1, 2, 3] ++ [1, 1, 65]) true none
        = readAll [1, 1, 65] true none :=
  ⟨(header_handling [71, 65, 77] [[[65]]] true none (by decide)).1,
   (header_handling [71, 65, 77] [[[65]]] true none (by decide)).2 [1, 2, 3] [1, 1, 65] rfl⟩

theorem chanWrite_ok_out (c c' : Chan) (bs : List Nat) (h : chanWrite c bs = Except.ok c') :
    c'.out = c.out ++ bs := by
  rw [chanWrite] at h
  split at h
  · cases h
    rfl
  · cases h
  · cases h
    rfl

theorem chanWrite_err (c ce : Chan) (bs : List Nat) (h : chanWrite c bs = Except.error ce) :
    ce = c := by
  rw [chanWrite] at h
  split at h
  · cases h
  · cases h
    rfl
  · cases h

/-- Running a put sequence followed by the final buffer clear: an error
anywhere leaves the pending buffer untouched; success clears it after
handing every chunk to the channel. -/
theorem runOps_put_clear (chunks : List (List Nat)) :
    ∀ s : WState,
      (∀ e, runOps s (chunks.map WOp.put ++ [WOp.clear]) = Except.error e →
        e.write_buff = s.write_buff)
      ∧ (∀ s', runOps s (chunks.map WOp.put ++ [WOp.clear]) = Except.ok s' →
          s'.write_buff = [] ∧ s'.chan.out = s.chan.out ++ chunks.flatten) := by
  induction chunks with
  | nil =>
    intro s
    constructor
    · intro e he
      simp [runOps] at he
    · intro s' hs'
      simp only [List.map_nil, List.nil_append, runOps] at hs'
      cases hs'
      simp
  | cons c cs ih =>
    intro s
    constructor
    · intro e he
      rw [List.map_cons, List.cons_append, runOps] at he
      split at he
      · next c' hcw =>
        exact (ih { s with chan := c' }).1 e he
      · cases he
        rfl
    · intro s' hs'
      rw [List.map_cons, List.cons_append, runOps] at hs'
      split at hs'
      · next c' hcw =>
        obtain ⟨hb, hout⟩ := (ih { s with chan := c' }).2 s' hs'
        refine ⟨hb, ?_⟩
        rw [hout]
        dsimp only
        rw [chanWrite_ok_out s.chan c' c hcw]
        simp
      · cases hs'

/-- C8: if any channel write raises during `flush`, the pending write
buffer is left exactly as it was before the flush attempt; the buffer is
cleared only after every byte of the group has been handed to the
channel. -/
theorem flush_failure_keeps_buffer (s : WState) :
    (∀ e, flushExc s = Except.error e → e.write_buff = s.write_buff)
    ∧ (∀ s', flushExc s = Except.ok s' → s.write_buff ≠ [] →
        s'.write_buff = [] ∧ s'.chan.out = s.chan.out ++ (flushChunks s.write_buff).flatten) := by
  constructor
  · intro e he
    rw [flushExc, flushOps] at he
    split at he
    · simp [runOps] at he
    · exact (runOps_put_clear (flushChunks s.write_buff) s).1 e he
  · intro s' hs' hne
    rw [flushExc, flushOps] at hs'
    rw [if_neg (by simp [hne])] at hs'
    exact (runOps_put_clear (flushChunks s.write_buff) s).2 s' hs'

theorem flush_failure_keeps_buffer_witness :
    flushExc ⟨⟨[], some 0⟩, [[65]]⟩ = Except.error ⟨⟨[], some 0⟩, [[65]]⟩
    ∧ (⟨⟨[], some 0⟩, [[65]]⟩ : WState).write_buff = [[65]] :=
  ⟨rfl, (flush_failure_keeps_buffer ⟨⟨[], some 0⟩, [[65]]⟩).1 ⟨⟨[], some 0⟩, [[65]]⟩ rfl⟩

theorem closeN_closed (n : Nat) : ∀ c : Nat, closeN n ⟨none, c⟩ = ⟨none, c⟩ := by
  induction n with
  | zero => intro c; rfl
  | succ k ih => intro c; rw [closeN, closeHandle]; exact ih c

/-- C9: a stream that opened its own channel (constructed by path) closes
it exactly once no matter how many times `close()` / `__exit__` run; a
stream wrapping an already-open fileobj never delivers a close to that
channel. -/
theorem channel_ownership :
    (∀ n : Nat, 1 ≤ n → closeN n initPathHandle = ⟨none, 1⟩)
    ∧ (∀ n : Nat, closeN n initFileobjHandle = ⟨none, 0⟩) := by
  constructor
  · intro n hn
    obtain ⟨k, rfl⟩ : ∃ k, n = k + 1 := ⟨n - 1, by omega⟩
    rw [closeN, show closeHandle initPathHandle = ⟨none, 1⟩ from rfl]
    exact closeN_closed k 1
  · intro n
    exact closeN_closed n 0

theorem channel_ownership_witness :
    closeN 3 initPathHandle = ⟨none, 1⟩ ∧ closeN 3 initFileobjHandle = ⟨none, 0⟩ :=
  ⟨channel_ownership.1 3 (by decide), channel_ownership.2 3⟩
